import Mathlib

/-!
Shallow embedding of the aggregation engine of the repository
(src/components/YouTubeAggregator.tsx and src/components/ChatDisplay.tsx),
together with proofs about the bounded merge log (`updateMessages`), the
liveness classification in `fetchChatMessages`, the polling loop of
`startPolling`, the emoji tokenizer `renderMessageWithEmojis`, and the
auto-scroll state machine of `ChatDisplay`.

JavaScript-specific behaviour is modelled explicitly:
* a JS `Map` is an association list with insert-order iteration, where
  `set` on an existing key overwrites in place and `set` on a fresh key
  appends (`jsMapSet`);
* `Array.prototype.sort` with a numeric comparator is a stable sort on the
  relation `comparator a b ≤ 0`, modelled by `jsStableSort` which is
  `List.mergeSort`; when the comparator is consistent (a total preorder)
  every stable sort agrees with this one, and when it is not (which happens
  below exactly when a timestamp fails to parse) ECMAScript leaves the
  order implementation-defined, so the model fixes one conforming choice;
* a comparator result of `NaN` (arising from an unparsable timestamp) is
  treated by the JS sort exactly like `0`, i.e. a tie, modelled by
  `tsCompare` returning `0` whenever either side fails to parse;
* `new Date(s).getTime()` is modelled at the boundary by `dateGetTime`,
  which parses strings of decimal digits and yields `none` (JS `NaN`)
  otherwise; every theorem that can be stated for an arbitrary parse
  function takes the parse function as a parameter.
-/

namespace Agg

/-! ### The stable sort, with a fuel version for closed evaluation

`List.mergeSort` and `List.merge` are defined by well-founded recursion and
do not reduce inside the kernel, so concrete runs are evaluated through
structurally recursive fuel versions proved equal to them. -/

/-- Fuel-indexed copy of `List.merge`; with enough fuel it coincides. -/
def mergeFuel (le : α → α → Bool) : Nat → List α → List α → List α
  | 0, xs, ys => xs ++ ys
  | _ + 1, [], ys => ys
  | _ + 1, x :: xs, [] => x :: xs
  | f + 1, x :: xs, y :: ys =>
    if le x y then x :: mergeFuel le f xs (y :: ys)
    else y :: mergeFuel le f (x :: xs) ys

theorem mergeFuel_eq (le : α → α → Bool) :
    ∀ (f : Nat) (xs ys : List α), xs.length + ys.length ≤ f →
      mergeFuel le f xs ys = xs.merge ys le := by
  intro f
  induction f with
  | zero =>
    intro xs ys h
    have hx : xs = [] := by cases xs <;> simp_all
    have hy : ys = [] := by cases ys <;> simp_all
    subst hx; subst hy
    simp [mergeFuel]
  | succ f ih =>
    intro xs ys h
    match xs, ys with
    | [], ys => simp [mergeFuel]
    | x :: xs, [] => simp [mergeFuel]
    | x :: xs, y :: ys =>
      simp only [mergeFuel, List.cons_merge_cons]
      simp only [List.length_cons] at h
      by_cases hle : le x y
      · simp only [hle, if_true]
        rw [ih xs (y :: ys) (by simp; omega)]
      · simp only [hle, Bool.false_eq_true, if_false]
        rw [ih (x :: xs) ys (by simp; omega)]

/-- Fuel-indexed copy of `List.mergeSort`; with enough fuel it coincides. -/
def mergeSortFuel (le : α → α → Bool) : Nat → List α → List α
  | 0, l => l
  | _ + 1, [] => []
  | _ + 1, [a] => [a]
  | f + 1, a :: b :: xs =>
    let l := a :: b :: xs
    let n := l.length
    mergeFuel le n (mergeSortFuel le f (l.take ((n + 1) / 2)))
      (mergeSortFuel le f (l.drop ((n + 1) / 2)))

theorem mergeSortFuel_eq (le : α → α → Bool) :
    ∀ (f : Nat) (l : List α), l.length ≤ f →
      mergeSortFuel le f l = l.mergeSort le := by
  intro f
  induction f with
  | zero =>
    intro l h
    have : l = [] := by cases l <;> simp_all
    subst this
    simp [mergeSortFuel]
  | succ f ih =>
    intro l h
    match l with
    | [] => simp [mergeSortFuel]
    | [a] => simp [mergeSortFuel]
    | a :: b :: xs =>
      rw [List.mergeSort]
      simp only [mergeSortFuel]
      have h1 : (List.splitInTwo ⟨a :: b :: xs, rfl⟩).1.1
          = (a :: b :: xs).take ((xs.length + 2 + 1) / 2) := by
        simp [List.splitInTwo_fst]
      have h2 : (List.splitInTwo ⟨a :: b :: xs, rfl⟩).2.1
          = (a :: b :: xs).drop ((xs.length + 2 + 1) / 2) := by
        simp [List.splitInTwo_snd]
      rw [h1, h2]
      simp only [List.length_cons] at h ⊢
      rw [ih _ (by simp; omega), ih _ (by simp; omega)]
      rw [mergeFuel_eq]
      simp only [List.length_mergeSort, List.length_take, List.length_drop]
      simp
      omega

/-- The stable sort performed by `combinedMessages.sort(comparator)`:
`List.mergeSort` on the relation `comparator a b ≤ 0`. -/
def jsStableSort (le : α → α → Bool) (l : List α) : List α :=
  l.mergeSort le

theorem jsStableSort_eval (le : α → α → Bool) (l : List α) :
    jsStableSort le l = mergeSortFuel le l.length l :=
  (mergeSortFuel_eq le l.length l (Nat.le_refl _)).symm

/-! ### Data model -/

/-- An inline emoji marker carried by a chat message (the `emojis` entries of
the `ChatMessage` interface in YouTubeAggregator.tsx / ChatDisplay.tsx). -/
structure EmojiObject where
  url : String
  label : String
  emojiId : String
deriving DecidableEq, Repr

/-- The `userType` union `'moderator' | 'member' | 'owner' | 'regular'`. -/
inductive UserType where
  | moderator
  | member
  | owner
  | regular
deriving DecidableEq, Repr

/-- The `sourceVideo` record of a `ChatMessage`. -/
structure SourceVideo where
  url : String
  id : String
  title : Option String := none
deriving DecidableEq, Repr

/-- The `ChatMessage` interface of YouTubeAggregator.tsx.  Optional fields
are `Option`s; `timestamp` is the raw source-supplied string. -/
structure ChatMessage where
  id : String
  message : String := ""
  authorName : String := ""
  authorChannelId : String := ""
  timestamp : String
  userType : Option UserType := none
  profileImage : Option String := none
  emojis : Option (List EmojiObject) := none
  sourceVideo : SourceVideo := ⟨"", "", none⟩
deriving DecidableEq, Repr

/-! ### JavaScript `Map` as an insert-ordered association list -/

/-- JS `Map.prototype.set`: overwrite the value in place when the key is
already present, append a new entry otherwise. -/
def jsMapSet {β : Type} (m : List (String × β)) (k : String) (v : β) :
    List (String × β) :=
  match m with
  | [] => [(k, v)]
  | (k₁, v₁) :: rest =>
    if k₁ = k then (k, v) :: rest else (k₁, v₁) :: jsMapSet rest k v

/-- JS `Map.prototype.has`. -/
def jsMapHas {β : Type} (m : List (String × β)) (k : String) : Bool :=
  m.any (fun p => p.1 = k)

/-! ### Timestamps and the sort comparator -/

/-- Numeric value of a decimal digit character, `none` otherwise. -/
def digitVal (c : Char) : Option Nat :=
  let n := c.toNat
  if 48 ≤ n ∧ n ≤ 57 then some (n - 48) else none

/-- Read a string of decimal digits, failing on the first non-digit. -/
def parseDigitsAux (acc : Nat) : List Char → Option Nat
  | [] => some acc
  | c :: rest =>
    match digitVal c with
    | some d => parseDigitsAux (acc * 10 + d) rest
    | none => none

/-- Boundary model of JavaScript `new Date(s).getTime()`: a nonempty string
of decimal digits is read as a millisecond count; any other string yields
`none`, the model of `NaN`.  Theorems take an arbitrary parse function
wherever possible; this concrete model is used for closed evaluations. -/
def dateGetTime (s : String) : Option Int :=
  match s.data with
  | [] => none
  | c :: rest => (parseDigitsAux 0 (c :: rest)).map Int.ofNat

/-- The comparator `new Date(a.timestamp).getTime() - new Date(b.timestamp).getTime()`
of `updateMessages`.  When either timestamp fails to parse the JS subtraction
yields `NaN`, which `Array.prototype.sort` treats exactly like a `0`
comparator result (neither `< 0` nor `> 0`), so the model returns `0`. -/
def tsCompare (getTime : String → Option Int) (a b : ChatMessage) : Int :=
  match getTime a.timestamp, getTime b.timestamp with
  | some x, some y => x - y
  | _, _ => 0

/-- The (not necessarily transitive) ordering used by the stable sort:
`a` may precede `b` iff the comparator does not demand the swap. -/
def tsLE (getTime : String → Option Int) (a b : ChatMessage) : Bool :=
  tsCompare getTime a b ≤ 0

/-- Parsed timestamp value of a message, with `0` for unparsable stamps
(only ever used under a hypothesis that the stamp parses). -/
def keyVal (getTime : String → Option Int) (m : ChatMessage) : Int :=
  (getTime m.timestamp).getD 0

/-! ### The bounded merge log: `updateMessages` -/

/-- Per-message normalization inside `updateMessages`
(`userType: msg.userType || 'regular'`, `profileImage: msg.profileImage || undefined`):
a missing `userType` defaults to `regular`, and a missing or empty (falsy)
`profileImage` becomes `undefined`. -/
def processMsg (msg : ChatMessage) : ChatMessage :=
  { msg with
    userType := some (msg.userType.getD UserType.regular)
    profileImage :=
      match msg.profileImage with
      | some s => if s = "" then none else some s
      | none => none }

/-- The first loop of `updateMessages`: seed the identity map from the
existing log (`prevMessages.forEach(msg => messagesMap.set(msg.id, msg))`). -/
def insertExisting (prev : List ChatMessage) : List (String × ChatMessage) :=
  prev.foldl (fun m msg => jsMapSet m msg.id msg) []

/-- The second loop of `updateMessages`: add each incoming message whose id
is not yet present, after normalizing it with `processMsg`. -/
def insertNew (m : List (String × ChatMessage)) (news : List ChatMessage) :
    List (String × ChatMessage) :=
  news.foldl
    (fun m msg => if jsMapHas m msg.id then m else jsMapSet m msg.id (processMsg msg))
    m

/-- The merged, deduplicated sequence `Array.from(messagesMap.values())`
built by `updateMessages` before sorting. -/
def mergeDedup (prev news : List ChatMessage) : List ChatMessage :=
  (insertNew (insertExisting prev) news).map Prod.snd

/-- Constant `MAX_MESSAGES` of YouTubeAggregator.tsx. -/
def MAX_MESSAGES : Nat := 5000

/-- Constant `PRUNE_THRESHOLD` of YouTubeAggregator.tsx. -/
def PRUNE_THRESHOLD : Nat := 4000

/-- Constant `PRUNE_TARGET` of YouTubeAggregator.tsx. -/
def PRUNE_TARGET : Nat := 3000

/-- Constant `MESSAGE_BATCH_SIZE` of YouTubeAggregator.tsx. -/
def MESSAGE_BATCH_SIZE : Nat := 200

/-- The state transition of `updateMessages`, parameterized by the timestamp
parse function and the two pruning constants.  `newMessages.length === 0`
returns early; otherwise the merged map is materialized, stably sorted by
the timestamp comparator, and sliced to the last `target` elements when the
length exceeds `threshold` (`combinedMessages.slice(-PRUNE_TARGET)`). -/
def updateMessagesCore (getTime : String → Option Int) (threshold target : Nat)
    (prev news : List ChatMessage) : List ChatMessage :=
  if news.isEmpty then prev
  else if threshold < (jsStableSort (tsLE getTime) (mergeDedup prev news)).length then
    (jsStableSort (tsLE getTime) (mergeDedup prev news)).drop
      ((jsStableSort (tsLE getTime) (mergeDedup prev news)).length - target)
  else jsStableSort (tsLE getTime) (mergeDedup prev news)

/-- The `updateMessages` callback of YouTubeAggregator.tsx as a pure state
transition on the stored `chatMessages` sequence. -/
def updateMessages (prev news : List ChatMessage) : List ChatMessage :=
  updateMessagesCore dateGetTime PRUNE_THRESHOLD PRUNE_TARGET prev news

/-- Kernel-evaluable form of `updateMessages`, used for closed runs. -/
def updateMessagesFuel (prev news : List ChatMessage) : List ChatMessage :=
  if news.isEmpty then prev
  else if PRUNE_THRESHOLD
      < (mergeSortFuel (tsLE dateGetTime) (mergeDedup prev news).length
          (mergeDedup prev news)).length then
    (mergeSortFuel (tsLE dateGetTime) (mergeDedup prev news).length
        (mergeDedup prev news)).drop
      ((mergeSortFuel (tsLE dateGetTime) (mergeDedup prev news).length
          (mergeDedup prev news)).length - PRUNE_TARGET)
  else mergeSortFuel (tsLE dateGetTime) (mergeDedup prev news).length (mergeDedup prev news)

theorem updateMessages_eval (prev news : List ChatMessage) :
    updateMessages prev news = updateMessagesFuel prev news := by
  unfold updateMessages updateMessagesCore updateMessagesFuel
  rw [jsStableSort_eval]

/-! ### Structure of the merged map -/

theorem processMsg_id (m : ChatMessage) : (processMsg m).id = m.id := rfl

theorem jsMapHas_iff {β : Type} (m : List (String × β)) (k : String) :
    jsMapHas m k = true ↔ k ∈ m.map Prod.fst := by
  simp only [jsMapHas, List.any_eq_true, List.mem_map, decide_eq_true_eq]

theorem jsMapSet_of_not_mem {β : Type} (m : List (String × β)) (k : String) (v : β)
    (h : k ∉ m.map Prod.fst) : jsMapSet m k v = m ++ [(k, v)] := by
  induction m with
  | nil => simp [jsMapSet]
  | cons p rest ih =>
    obtain ⟨k₁, v₁⟩ := p
    simp only [List.map_cons, List.mem_cons, not_or] at h
    simp only [jsMapSet]
    rw [if_neg (by exact fun hk => h.1 hk.symm), ih h.2]
    simp

theorem foldl_set_eq (l : List ChatMessage) :
    ∀ m₀ : List (String × ChatMessage),
      (l.map (fun m => m.id)).Nodup →
      (∀ p ∈ l, p.id ∉ m₀.map Prod.fst) →
      l.foldl (fun m msg => jsMapSet m msg.id msg) m₀
        = m₀ ++ l.map (fun m => (m.id, m)) := by
  induction l with
  | nil => intro m₀ _ _; simp
  | cons p rest ih =>
    intro m₀ hnd hdis
    simp only [List.map_cons, List.nodup_cons] at hnd
    simp only [List.foldl_cons]
    rw [jsMapSet_of_not_mem _ _ _ (hdis p (by simp))]
    rw [ih (m₀ ++ [(p.id, p)]) hnd.2]
    · simp
    · intro q hq
      simp only [List.map_append, List.mem_append, not_or]
      refine ⟨hdis q (by simp [hq]), ?_⟩
      have : q.id ≠ p.id := by
        intro hqe
        exact hnd.1 (hqe ▸ List.mem_map_of_mem (fun m => m.id) hq)
      simp [this]

theorem insertExisting_eq (prev : List ChatMessage)
    (hnd : (prev.map (fun m => m.id)).Nodup) :
    insertExisting prev = prev.map (fun m => (m.id, m)) := by
  unfold insertExisting
  rw [foldl_set_eq prev [] hnd (by simp)]
  simp

/-- The sublist of a batch that `updateMessages` actually inserts, given the
set `seen` of ids already present: already-present ids are skipped, fresh
ones are normalized and inserted (and their id then counts as seen for the
rest of the batch). -/
def newInserts (seen : List String) : List ChatMessage → List ChatMessage
  | [] => []
  | b :: rest =>
    if b.id ∈ seen then newInserts seen rest
    else processMsg b :: newInserts (b.id :: seen) rest

theorem insertNew_cons (m₀ : List (String × ChatMessage)) (b : ChatMessage)
    (rest : List ChatMessage) :
    insertNew m₀ (b :: rest)
      = insertNew (if jsMapHas m₀ b.id then m₀ else jsMapSet m₀ b.id (processMsg b)) rest :=
  rfl

theorem insertNew_eq (news : List ChatMessage) :
    ∀ (m₀ : List (String × ChatMessage)) (seen : List String),
      (∀ i, i ∈ seen ↔ i ∈ m₀.map Prod.fst) →
      insertNew m₀ news = m₀ ++ (newInserts seen news).map (fun m => (m.id, m)) := by
  induction news with
  | nil => intro m₀ seen _; simp [insertNew, newInserts]
  | cons b rest ih =>
    intro m₀ seen hiff
    rw [insertNew_cons]
    simp only [newInserts]
    by_cases hb : b.id ∈ seen
    · have hhas : jsMapHas m₀ b.id = true := (jsMapHas_iff m₀ b.id).mpr ((hiff b.id).mp hb)
      rw [if_pos (by simp [hhas]), if_pos hb]
      exact ih m₀ seen hiff
    · have hnm : b.id ∉ m₀.map Prod.fst := fun hk => hb ((hiff b.id).mpr hk)
      have hhas : jsMapHas m₀ b.id = false := by
        rcases h : jsMapHas m₀ b.id with _ | _
        · rfl
        · exact absurd ((jsMapHas_iff m₀ b.id).mp h) hnm
      rw [if_neg (by simp [hhas]), if_neg hb]
      rw [jsMapSet_of_not_mem m₀ b.id (processMsg b) hnm]
      rw [ih (m₀ ++ [(b.id, processMsg b)]) (b.id :: seen) ?_]
      · simp [processMsg_id]
      · intro i
        simp only [List.mem_cons, List.map_append, List.mem_append]
        rw [hiff i]
        simp [or_comm]

theorem mergeDedup_eq (prev news : List ChatMessage)
    (hnd : (prev.map (fun m => m.id)).Nodup) :
    mergeDedup prev news = prev ++ newInserts (prev.map (fun m => m.id)) news := by
  unfold mergeDedup
  rw [insertExisting_eq prev hnd]
  rw [insertNew_eq news _ (prev.map (fun m => m.id)) (by intro i; simp [List.map_map])]
  simp only [List.map_append, List.map_map]
  have h₂ : (Prod.snd ∘ fun m : ChatMessage => (m.id, m)) = id := rfl
  rw [h₂, List.map_id, List.map_id]

theorem mem_newInserts (seen : List String) (news : List ChatMessage) :
    ∀ m ∈ newInserts seen news, ∃ b ∈ news, m = processMsg b := by
  induction news generalizing seen with
  | nil => intro m hm; simp [newInserts] at hm
  | cons b rest ih =>
    intro m hm
    simp only [newInserts] at hm
    by_cases hb : b.id ∈ seen
    · rw [if_pos hb] at hm
      obtain ⟨c, hc, hce⟩ := ih seen m hm
      exact ⟨c, by simp [hc], hce⟩
    · rw [if_neg hb] at hm
      rcases List.mem_cons.mp hm with h | h
      · exact ⟨b, by simp, h⟩
      · obtain ⟨c, hc, hce⟩ := ih (b.id :: seen) m h
        exact ⟨c, by simp [hc], hce⟩

theorem newInserts_id_not_seen (seen : List String) (news : List ChatMessage) :
    ∀ m ∈ newInserts seen news, m.id ∉ seen := by
  induction news generalizing seen with
  | nil => intro m hm; simp [newInserts] at hm
  | cons b rest ih =>
    intro m hm
    simp only [newInserts] at hm
    by_cases hb : b.id ∈ seen
    · rw [if_pos hb] at hm
      exact ih seen m hm
    · rw [if_neg hb] at hm
      rcases List.mem_cons.mp hm with h | h
      · rw [h, processMsg_id]; exact hb
      · intro hmem
        exact ih (b.id :: seen) m h (by simp [hmem])

theorem newInserts_ids_nodup (seen : List String) (news : List ChatMessage) :
    ((newInserts seen news).map (fun m => m.id)).Nodup := by
  induction news generalizing seen with
  | nil => simp [newInserts]
  | cons b rest ih =>
    simp only [newInserts]
    by_cases hb : b.id ∈ seen
    · rw [if_pos hb]; exact ih seen
    · rw [if_neg hb]
      simp only [List.map_cons, List.nodup_cons, processMsg_id]
      refine ⟨?_, ih (b.id :: seen)⟩
      intro hmem
      obtain ⟨m, hm, hme⟩ := List.mem_map.mp hmem
      exact newInserts_id_not_seen (b.id :: seen) rest m hm (by simp [hme])

theorem newInserts_covers (seen : List String) (news : List ChatMessage) :
    ∀ b ∈ news, b.id ∈ seen ∨ b.id ∈ (newInserts seen news).map (fun m => m.id) := by
  induction news generalizing seen with
  | nil => intro b hb; simp at hb
  | cons c rest ih =>
    intro b hb
    simp only [newInserts]
    by_cases hc : c.id ∈ seen
    · rw [if_pos hc]
      rcases List.mem_cons.mp hb with h | h
      · left; rw [h]; exact hc
      · exact ih seen b h
    · rw [if_neg hc]
      simp only [List.map_cons, processMsg_id, List.mem_cons]
      rcases List.mem_cons.mp hb with h | h
      · right; left; rw [h]
      · rcases ih (c.id :: seen) b h with h₂ | h₂
        · rcases List.mem_cons.mp h₂ with h₃ | h₃
          · right; left; exact h₃
          · left; exact h₃
        · right; right; exact h₂

theorem mergeDedup_ids_nodup (prev news : List ChatMessage)
    (hnd : (prev.map (fun m => m.id)).Nodup) :
    ((mergeDedup prev news).map (fun m => m.id)).Nodup := by
  rw [mergeDedup_eq prev news hnd, List.map_append]
  rw [List.nodup_append]
  refine ⟨hnd, newInserts_ids_nodup _ _, ?_⟩
  intro x hx hx₂
  obtain ⟨m, hm, hme⟩ := List.mem_map.mp hx₂
  exact newInserts_id_not_seen _ _ m hm (hme ▸ hx)

theorem newInserts_eq_nil (seen : List String) (news : List ChatMessage)
    (h : ∀ b ∈ news, b.id ∈ seen) : newInserts seen news = [] := by
  induction news with
  | nil => simp [newInserts]
  | cons b rest ih =>
    simp only [newInserts]
    rw [if_pos (h b (by simp))]
    exact ih fun c hc => h c (by simp [hc])

/-! ### Sortedness and stability when every timestamp parses

The comparator relation `tsLE` is a total preorder only on messages whose
timestamps parse (an unparsable stamp ties with everything, destroying
transitivity), so the standard sorting lemmas are transferred from the
integers through `List.map_mergeSort`, which only requires the comparator
and the integer order to agree on members of the list being sorted. -/

/-- Tag a message with its parsed timestamp value. -/
def keyPair (getTime : String → Option Int) (m : ChatMessage) : Int × ChatMessage :=
  (keyVal getTime m, m)

/-- Integer comparison on the first component of a tagged message. -/
def keyPairLE (p q : Int × ChatMessage) : Bool :=
  decide (p.1 ≤ q.1)

theorem keyPairLE_trans (a b c : Int × ChatMessage) :
    keyPairLE a b → keyPairLE b c → keyPairLE a c := by
  simp only [keyPairLE, decide_eq_true_eq]
  omega

theorem keyPairLE_total (a b : Int × ChatMessage) :
    keyPairLE a b || keyPairLE b a := by
  simp only [keyPairLE]
  by_cases h : a.1 ≤ b.1
  · simp [h]
  · simp [h, Int.le_of_not_le h]

theorem tsLE_eq_keyPairLE (getTime : String → Option Int) (a b : ChatMessage)
    (ha : (getTime a.timestamp).isSome) (hb : (getTime b.timestamp).isSome) :
    tsLE getTime a b = keyPairLE (keyPair getTime a) (keyPair getTime b) := by
  obtain ⟨x, hx⟩ := Option.isSome_iff_exists.mp ha
  obtain ⟨y, hy⟩ := Option.isSome_iff_exists.mp hb
  simp only [tsLE, tsCompare, keyPairLE, keyPair, keyVal, hx, hy, Option.getD_some]
  rw [decide_eq_decide]
  omega

theorem map_keyPair_jsStableSort (getTime : String → Option Int) (l : List ChatMessage)
    (wf : ∀ m ∈ l, (getTime m.timestamp).isSome) :
    (jsStableSort (tsLE getTime) l).map (keyPair getTime)
      = (l.map (keyPair getTime)).mergeSort keyPairLE :=
  List.map_mergeSort (fun a ha b hb => tsLE_eq_keyPairLE getTime a b (wf a ha) (wf b hb))

theorem pairwise_key_jsStableSort (getTime : String → Option Int) (l : List ChatMessage)
    (wf : ∀ m ∈ l, (getTime m.timestamp).isSome) :
    (jsStableSort (tsLE getTime) l).Pairwise
      (fun a b => keyVal getTime a ≤ keyVal getTime b) := by
  have hs := List.sorted_mergeSort keyPairLE_trans keyPairLE_total (l.map (keyPair getTime))
  rw [← map_keyPair_jsStableSort getTime l wf] at hs
  have h₂ := List.pairwise_map.mp hs
  refine h₂.imp ?_
  intro a b h
  simpa [keyPairLE, keyPair] using h

theorem pairwise_tsLE_jsStableSort (getTime : String → Option Int) (l : List ChatMessage)
    (wf : ∀ m ∈ l, (getTime m.timestamp).isSome) :
    (jsStableSort (tsLE getTime) l).Pairwise (fun a b => tsLE getTime a b = true) := by
  refine (pairwise_key_jsStableSort getTime l wf).imp_of_mem ?_
  intro a b ha hb h
  have ha₂ := wf a (by simpa [jsStableSort] using ha)
  have hb₂ := wf b (by simpa [jsStableSort] using hb)
  rw [tsLE_eq_keyPairLE getTime a b ha₂ hb₂]
  simpa [keyPairLE, keyPair] using h

theorem pair_sublist_jsStableSort (getTime : String → Option Int)
    {l : List ChatMessage} {a b : ChatMessage}
    (wf : ∀ m ∈ l, (getTime m.timestamp).isSome)
    (hk : keyVal getTime a ≤ keyVal getTime b) (hs : List.Sublist [a, b] l) :
    List.Sublist [a, b] (jsStableSort (tsLE getTime) l) := by
  have h₁ : List.Sublist [keyPair getTime a, keyPair getTime b] (l.map (keyPair getTime)) := by
    simpa using hs.map (keyPair getTime)
  have h₂ := List.pair_sublist_mergeSort keyPairLE_trans keyPairLE_total
    (by simpa [keyPairLE, keyPair] using hk) h₁
  rw [← map_keyPair_jsStableSort getTime l wf] at h₂
  obtain ⟨l₂, hsub, heq⟩ := List.sublist_map_iff.mp h₂
  cases l₂ with
  | nil => simp at heq
  | cons x t =>
    cases t with
    | nil => simp at heq
    | cons y t₂ =>
      cases t₂ with
      | cons z t₃ => simp at heq
      | nil =>
        simp only [List.map_cons, List.map_nil, List.cons.injEq, and_true] at heq
        have hx : a = x := congrArg Prod.snd heq.1
        have hy : b = y := congrArg Prod.snd heq.2
        rw [← hx, ← hy] at hsub
        exact hsub

theorem jsStableSort_length (le : α → α → Bool) (l : List α) :
    (jsStableSort le l).length = l.length :=
  List.length_mergeSort l

theorem jsStableSort_perm (le : α → α → Bool) (l : List α) :
    List.Perm (jsStableSort le l) l :=
  List.mergeSort_perm l le

theorem jsStableSort_of_sorted {le : α → α → Bool} {l : List α}
    (h : l.Pairwise (fun a b => le a b = true)) : jsStableSort le l = l :=
  List.mergeSort_of_sorted h

theorem jsStableSort_mem {le : α → α → Bool} {l : List α} {a : α} :
    a ∈ jsStableSort le l ↔ a ∈ l :=
  List.mem_mergeSort

theorem pairwise_take_drop {α : Type} {R : α → α → Prop} {l : List α}
    (h : l.Pairwise R) (k : Nat) :
    ∀ x ∈ l.take k, ∀ y ∈ l.drop k, R x y := by
  rw [← List.take_append_drop k l] at h
  exact fun x hx y hy => (List.pairwise_append.mp h).2.2 x hx y hy

/-! ### Shapes of an `updateMessages` cycle -/

theorem updateMessagesCore_nil (getTime : String → Option Int) (threshold target : Nat)
    (prev : List ChatMessage) :
    updateMessagesCore getTime threshold target prev [] = prev := by
  simp [updateMessagesCore]

theorem updateMessagesCore_of_le (getTime : String → Option Int) (threshold target : Nat)
    (prev news : List ChatMessage) (hne : news ≠ [])
    (hlen : (mergeDedup prev news).length ≤ threshold) :
    updateMessagesCore getTime threshold target prev news
      = jsStableSort (tsLE getTime) (mergeDedup prev news) := by
  unfold updateMessagesCore
  rw [if_neg (by simpa [List.isEmpty_iff] using hne)]
  rw [if_neg (by rw [jsStableSort_length]; omega)]

theorem updateMessagesCore_of_gt (getTime : String → Option Int) (threshold target : Nat)
    (prev news : List ChatMessage) (hne : news ≠ [])
    (hlen : threshold < (mergeDedup prev news).length) :
    updateMessagesCore getTime threshold target prev news
      = (jsStableSort (tsLE getTime) (mergeDedup prev news)).drop
          ((mergeDedup prev news).length - target) := by
  unfold updateMessagesCore
  rw [if_neg (by simpa [List.isEmpty_iff] using hne)]
  rw [if_pos (by rw [jsStableSort_length]; omega)]
  rw [jsStableSort_length]

theorem updateMessagesCore_length_le (getTime : String → Option Int)
    (threshold target : Nat) (prev news : List ChatMessage)
    (hprev : prev.length ≤ max threshold target) :
    (updateMessagesCore getTime threshold target prev news).length
      ≤ max threshold target := by
  unfold updateMessagesCore
  by_cases hn : news.isEmpty
  · rw [if_pos hn]; exact hprev
  · rw [if_neg hn]
    by_cases hgt : threshold < (jsStableSort (tsLE getTime) (mergeDedup prev news)).length
    · rw [if_pos hgt]
      rw [List.length_drop]
      omega
    · rw [if_neg hgt]
      omega

theorem mem_updateMessagesCore (getTime : String → Option Int)
    (threshold target : Nat) (prev news : List ChatMessage) (m : ChatMessage)
    (hm : m ∈ updateMessagesCore getTime threshold target prev news) :
    m ∈ prev ∨ m ∈ mergeDedup prev news := by
  unfold updateMessagesCore at hm
  by_cases hn : news.isEmpty
  · rw [if_pos hn] at hm; exact Or.inl hm
  · rw [if_neg hn] at hm
    right
    by_cases hgt : threshold < (jsStableSort (tsLE getTime) (mergeDedup prev news)).length
    · rw [if_pos hgt] at hm
      exact jsStableSort_mem.mp (List.mem_of_mem_drop hm)
    · rw [if_neg hgt] at hm
      exact jsStableSort_mem.mp hm

/-! ### Tokenizer: `renderMessageWithEmojis` of ChatDisplay.tsx -/

/-- A renderable segment: a plain text run, or an emoji image reference
carrying the per-occurrence sequence number used for its render key. -/
inductive Segment where
  | text (s : String)
  | emoji (emojiId url label : String) (seq : Nat)
deriving DecidableEq, Repr

/-- The `emojiMap` of `renderMessageWithEmojis`: built by iterating
`message.emojis` with `Map.set` keyed by `emojiId` (a later emoji with the
same id overwrites the stored value but keeps the original position). -/
def emojiMapOf (emojis : List EmojiObject) : List (String × EmojiObject) :=
  emojis.foldl (fun m e => jsMapSet m e.emojiId e) []

/-- One pass of the inner `for (const [emojiId, …] of emojiMap.entries())`
loop: the first map entry whose key is a literal prefix of the remaining
input matches (`message.substring(i).startsWith(emojiId)`). -/
def findEmojiMatch (table : List (String × EmojiObject)) (rest : List Char) :
    Option (String × EmojiObject) :=
  match table with
  | [] => none
  | (k, e) :: t => if k.data.isPrefixOf rest then some (k, e) else findEmojiMatch t rest

/-- Lookup with default, as in `emojiUsageCount.get(emojiId) || 0`. -/
def jsMapGetD {β : Type} (m : List (String × β)) (k : String) (d : β) : β :=
  match m with
  | [] => d
  | (k₁, v) :: rest => if k₁ = k then v else jsMapGetD rest k d

/-- The scanning `while (i < message.message.length)` loop of
`renderMessageWithEmojis`, with `cur` the pending plain-text run, `rest`
the unscanned suffix and `counts` the per-emoji usage counter.  The loop
advances by the matched marker's length, so it diverges in the source when
a marker is the empty string; the fuel argument (instantiated with the
message length, enough for any run with nonempty markers) only serves to
make the function total, and the fuel-exhausted arm is unreachable under
nonempty markers. -/
def renderScan (table : List (String × EmojiObject)) :
    Nat → List Char → List Char → List (String × Nat) → List Segment
  | _, cur, [], _ =>
    if cur.isEmpty then [] else [Segment.text (String.mk cur)]
  | 0, cur, c :: rest, _ =>
    if cur.isEmpty then [Segment.text (String.mk (c :: rest))]
    else [Segment.text (String.mk cur), Segment.text (String.mk (c :: rest))]
  | f + 1, cur, c :: rest, counts =>
    match findEmojiMatch table (c :: rest) with
    | some (k, e) =>
      (if cur.isEmpty then [] else [Segment.text (String.mk cur)])
        ++ Segment.emoji e.emojiId e.url e.label (jsMapGetD counts k 0)
          :: renderScan table f [] ((c :: rest).drop k.data.length)
              (jsMapSet counts k (jsMapGetD counts k 0 + 1))
    | none => renderScan table f (cur ++ [c]) rest counts

/-- The `renderMessageWithEmojis` function of ChatDisplay.tsx (lines
254-328), as the list of segments it renders: with no emoji markers it
returns the single full-text span, otherwise it runs the scanning loop. -/
def renderMessageWithEmojis (message : ChatMessage) : List Segment :=
  match message.emojis with
  | none => [Segment.text message.message]
  | some [] => [Segment.text message.message]
  | some es =>
    renderScan (emojiMapOf es) message.message.data.length [] message.message.data []

/-! ### Liveness classification in `fetchChatMessages` -/

/-- Substring test on character lists, models `String.prototype.includes`. -/
def listContainsSub (pat : List Char) : List Char → Bool
  | [] => pat.isEmpty
  | c :: rest => pat.isPrefixOf (c :: rest) || listContainsSub pat rest

/-- JS `s.includes(pat)`. -/
def containsSub (s pat : String) : Bool :=
  listContainsSub pat.data s.data

/-- A character that the regex `https?:\/\/[^\s:"]+` accepts after the
scheme: anything but whitespace, a colon or a double quote. -/
def urlTailChar (c : Char) : Bool :=
  !(c.isWhitespace || c = ':' || c = '"')

/-- Match of the regex `https?:\/\/[^\s:"]+` anchored at the start of `l`:
the literal scheme (greedy optional `s`, with the backtracking that JS
performs built in, since an `https://` prefix always subsumes the `http`
alternative) followed by at least one tail character. -/
def matchUrlAt (l : List Char) : Option (List Char) :=
  if ("https://".data).isPrefixOf l then
    if ((l.drop 8).takeWhile urlTailChar).isEmpty then none
    else some ("https://".data ++ (l.drop 8).takeWhile urlTailChar)
  else if ("http://".data).isPrefixOf l then
    if ((l.drop 7).takeWhile urlTailChar).isEmpty then none
    else some ("http://".data ++ (l.drop 7).takeWhile urlTailChar)
  else none

/-- Leftmost match of the URL regex in a string
(`errorMsg.match(/https?:\/\/[^\s:"]+/)`). -/
def firstUrlMatch : List Char → Option String
  | [] => none
  | c :: rest =>
    match matchUrlAt (c :: rest) with
    | some u => some (String.mk u)
    | none => firstUrlMatch rest

/-- The three upstream phrases `fetchChatMessages` accepts as definitive
dead-stream signals (lines 188-190). -/
def isNotLiveError (e : String) : Bool :=
  containsSub e "Failed to fetch live chat" || containsSub e "400 Bad Request" ||
    containsSub e "not a live video"

/-- Body of the `data.errors.forEach` loop of `fetchChatMessages`
(lines 181-198): extract a URL from the error text; when the text carries
one of the dead-stream signals and the URL is not already known non-live,
push it onto the batch of newly non-live URLs. -/
def classifyStep (nonLiveUrls : List String) (acc : List String) (e : String) :
    List String :=
  match firstUrlMatch e.data with
  | none => acc
  | some url =>
    if isNotLiveError e then
      if url ∈ nonLiveUrls then acc else acc ++ [url]
    else acc

/-- The error-classification loop of `fetchChatMessages` (lines 178-198):
the batch `newNonLiveUrls` accumulated over all raw error strings. -/
def processChatErrors (errors : List String) (nonLiveUrls : List String) : List String :=
  errors.foldl (classifyStep nonLiveUrls) []

/-! ### The polling loop of `startPolling` -/

/-- State of one polling session of `startPolling`, together with the
pieces of the React host that the session's lifecycle depends on.
`staleChat`/`staleMeta` are the interval ids held by the
`pollingIntervals` state that the interval CALLBACK closed over when
`startPolling` ran — state updates after that point do not change that
closure, so these stay the ids of the PREVIOUS session (or `none`) —
while `chatId`/`metaId` are the ids `setInterval` returned for this
session.  `pollingChat`/`pollingMeta` are the current `pollingIntervals`
React state, `cleanupChat`/`cleanupMeta` the value captured by the
cleanup of the currently registered `useEffect([pollingIntervals])`
(lines 377-382), i.e. the `pollingIntervals` value of the render that
last ran the effect, and `pollingChanged` records that
`setPollingIntervals` was called since the last commit (each call stores
a fresh object, so the effect re-fires).  `activeIntervals` is the set of
interval ids still installed in the environment; `fetches` counts
`fetchChatMessages` calls made by ticks and `errorReports` counts
executions of the `setError('No active live streams found…')` exhaustion
branch. -/
structure PollState where
  urls : List String
  nonLiveUrls : List String
  activeIntervals : List Nat
  staleChat : Option Nat
  staleMeta : Option Nat
  chatId : Nat
  metaId : Nat
  pollingChat : Option Nat
  pollingMeta : Option Nat
  cleanupChat : Option Nat
  cleanupMeta : Option Nat
  pollingChanged : Bool
  fetches : Nat
  errorReports : Nat
deriving DecidableEq, Repr

/-- The per-tick recomputation
`urlsRef.current.filter(url => !nonLiveUrlsRef.current.includes(url))`. -/
def liveUrlsOf (s : PollState) : List String :=
  s.urls.filter (fun u => !(s.nonLiveUrls.contains u))

/-- One firing of the chat interval callback installed by `startPolling`
(lines 305-319): with live URLs it fetches; otherwise it calls
`clearInterval` on the two ids of its captured (stale) `pollingIntervals`
closure value, calls `setPollingIntervals({chat: null, metadata: null})`
and reports the exhaustion error. -/
def chatTick (s : PollState) : PollState :=
  if 0 < (liveUrlsOf s).length then
    { s with fetches := s.fetches + 1 }
  else
    { s with
      activeIntervals := s.activeIntervals.filter
        (fun i => !(some i == s.staleChat) && !(some i == s.staleMeta)),
      pollingChat := none, pollingMeta := none, pollingChanged := true,
      errorReports := s.errorReports + 1 }

/-- The React commit that follows a callback in which
`setPollingIntervals` was called: the `useEffect` with dependency
`[pollingIntervals]` (lines 377-382) first runs the PREVIOUS effect's
cleanup — whose closure holds the `pollingIntervals` value from before
the update, i.e. this session's real interval ids — clearing those ids,
and then re-registers a cleanup capturing the new value. -/
def reactCommit (s : PollState) : PollState :=
  if s.pollingChanged then
    { s with
      activeIntervals := s.activeIntervals.filter
        (fun i => !(some i == s.cleanupChat) && !(some i == s.cleanupMeta)),
      cleanupChat := s.pollingChat, cleanupMeta := s.pollingMeta,
      pollingChanged := false }
  else s

/-- One turn of the event loop: the chat interval fires only while its id
is still installed, and the React commit (with any effect cleanup) runs
before the next tick — the interval period is seconds, a commit is
milliseconds. -/
def pollStep (s : PollState) : PollState :=
  if s.chatId ∈ s.activeIntervals then reactCommit (chatTick s) else s

/-- Run `k` consecutive timer ticks. -/
def runTicks (s : PollState) : Nat → PollState
  | 0 => s
  | k + 1 => runTicks (pollStep s) k

/-- A session started by `startPolling` on a single URL whose source has
since been classified non-live: the interval callback's captured
`pollingIntervals` closure value was `{chat: null, metadata: null}`
(`staleChat = staleMeta = none`), this session's interval ids 1 and 2 are
installed and held both by the current `pollingIntervals` state and by
the registered effect cleanup, and no fetch or error report has happened
yet. -/
def exhaustedSession : PollState :=
  { urls := ["https://www.youtube.com/watch?v=a"],
    nonLiveUrls := ["https://www.youtube.com/watch?v=a"],
    activeIntervals := [1, 2], staleChat := none, staleMeta := none,
    chatId := 1, metaId := 2,
    pollingChat := some 1, pollingMeta := some 2,
    cleanupChat := some 1, cleanupMeta := some 2, pollingChanged := false,
    fetches := 0, errorReports := 0 }

/-! ### The auto-scroll two-state machine of ChatDisplay.tsx -/

/-- One scroll observation delivered to `handleScroll`: the callback
payload plus whether the list ref and its `_outerRef` internal were
available and whether reading the internals threw. -/
structure ScrollEvent where
  scrollOffset : Int
  scrollUpdateWasRequested : Bool
  listAttached : Bool
  threw : Bool
  outerAttached : Bool
  clientHeight : Int
  scrollHeight : Int
deriving DecidableEq, Repr

/-- The `handleScroll` callback of ChatDisplay.tsx (lines 388-418) as a
transition on the `autoScroll` flag: programmatic scrolls are ignored; if
reading the list internals throws, the fallback sets the flag to
`scrollOffset > 0`; otherwise, with the internals available, the flag is
set to whether the viewport sits within 100px of the bottom
(`scrollOffset + clientHeight >= scrollHeight - 100`). -/
def handleScroll (autoScroll : Bool) (ev : ScrollEvent) : Bool :=
  if ev.scrollUpdateWasRequested then autoScroll
  else if ev.listAttached then
    if ev.threw then decide (0 < ev.scrollOffset)
    else if ev.outerAttached then
      decide (ev.scrollHeight - 100 ≤ ev.scrollOffset + ev.clientHeight)
    else autoScroll
  else autoScroll

/-- The explicit auto-scroll toggle button of `renderChatContent`
(lines 613-628). -/
def toggleAutoScrollClick (autoScroll : Bool) : Bool :=
  !autoScroll

/-- The explicit scroll-to-latest button shown while `autoScroll` is off
(lines 685-691). -/
def scrollToLatestClick (_autoScroll : Bool) : Bool :=
  true

/-! ### Concrete fixtures used in closed runs -/

/-- A chat message with the given id and timestamp and default fields. -/
def mkMsg (i ts : String) : ChatMessage :=
  { id := i, timestamp := ts }

/-- A batch mixing parsable timestamps (9, 5, 8) with three unparsable
ones; sorting it exercises the `NaN`-tie comparator. -/
def nanBatch : List ChatMessage :=
  [mkMsg "1" "a", mkMsg "2" "b", mkMsg "3" "9", mkMsg "4" "5", mkMsg "5" "e", mkMsg "6" "8"]

/-- A message whose `timestamp` is unparsable. -/
def badMsg : ChatMessage :=
  mkMsg "b1" "not-a-date"

/-- The `i`-th event of a full log: distinct ids (`'a'` repeated `i + 1`
times), all timestamped 5, normalized fields. -/
def bigMsg (i : Nat) : ChatMessage :=
  { id := String.mk (List.replicate (i + 1) 'a'), timestamp := "5",
    userType := some UserType.regular }

/-- A log of exactly `PRUNE_THRESHOLD` events (reachable: a cycle whose
merged size lands exactly on the threshold is not pruned). -/
def bigPrev : List ChatMessage :=
  (List.range 4000).map bigMsg

/-- A fresh event strictly older than everything in `bigPrev`. -/
def bNew : ChatMessage :=
  mkMsg "b" "4"

/-! ### Claims -/

/-- Claim C1: after an insert cycle the log size is at most
`max pruneThreshold pruneTarget` (provided it was within the bound before,
which holds inductively from the empty log); the code's `updateMessages`
is the instance of the parameterized cycle at threshold 4000 and target
3000; and whenever the merged deduplicated sequence exceeds the threshold,
the result is exactly the last `pruneTarget` elements of the stably sorted
merge — so it has exactly `pruneTarget` elements and, when every timestamp
parses, every retained event's parsed timestamp is at least that of every
dropped event, i.e. the retained events are the `pruneTarget` most recent
in timestamp order. -/
theorem updateMessages_bounded_and_prunes_to_target (getTime : String → Option Int)
    (threshold target : Nat) (prev news : List ChatMessage)
    (htt : target ≤ threshold)
    (hgt : threshold < (mergeDedup prev news).length)
    (hne : news ≠ []) :
    (∀ p n : List ChatMessage, p.length ≤ max threshold target →
        (updateMessagesCore getTime threshold target p n).length ≤ max threshold target)
      ∧ (∀ p n : List ChatMessage,
          updateMessages p n = updateMessagesCore dateGetTime 4000 3000 p n)
      ∧ updateMessagesCore getTime threshold target prev news
          = (jsStableSort (tsLE getTime) (mergeDedup prev news)).drop
              ((mergeDedup prev news).length - target)
      ∧ (updateMessagesCore getTime threshold target prev news).length = target
      ∧ ((∀ m ∈ mergeDedup prev news, (getTime m.timestamp).isSome) →
          ∀ x ∈ (jsStableSort (tsLE getTime) (mergeDedup prev news)).take
              ((mergeDedup prev news).length - target),
            ∀ y ∈ updateMessagesCore getTime threshold target prev news,
              keyVal getTime x ≤ keyVal getTime y) := by
  have hshape := updateMessagesCore_of_gt getTime threshold target prev news hne hgt
  refine ⟨fun p n => updateMessagesCore_length_le getTime threshold target p n,
    fun p n => rfl, hshape, ?_, ?_⟩
  · rw [hshape, List.length_drop, jsStableSort_length]
    omega
  · intro hwf x hx y hy
    rw [hshape] at hy
    exact pairwise_take_drop (pairwise_key_jsStableSort getTime _ hwf)
      ((mergeDedup prev news).length - target) x hx y hy

/-- Witness for C1 at threshold 2, target 1, a one-element log and a batch
of two fresh events: the merged size 3 exceeds the threshold and the cycle
prunes to exactly the single most recent event. -/
theorem updateMessages_bounded_and_prunes_to_target_witness :
    (1 ≤ 2 ∧ 2 < (mergeDedup [mkMsg "1" "1"] [mkMsg "2" "2", mkMsg "3" "3"]).length)
      ∧ (updateMessagesCore dateGetTime 2 1
          [mkMsg "1" "1"] [mkMsg "2" "2", mkMsg "3" "3"]).length = 1 := by
  refine ⟨⟨by decide, by decide⟩, ?_⟩
  exact (updateMessages_bounded_and_prunes_to_target dateGetTime 2 1
    [mkMsg "1" "1"] [mkMsg "2" "2", mkMsg "3" "3"]
    (by decide) (by decide) (by decide)).2.2.2.1

/-- Claim C4: an incoming event whose id already exists in the log is
dropped rather than overwriting — every element of the cycle's result
whose id was already known is literally the previously stored version —
while an incoming event with a fresh id is stored as its normalization,
whose missing `userType` has been defaulted to `regular`. -/
theorem updateMessages_keeps_first_seen_and_normalizes (getTime : String → Option Int)
    (threshold target : Nat) (prev news : List ChatMessage) (m : ChatMessage)
    (hnd : (prev.map (fun x => x.id)).Nodup)
    (hm : m ∈ updateMessagesCore getTime threshold target prev news) :
    (m.id ∈ prev.map (fun x => x.id) → m ∈ prev)
      ∧ (m.id ∉ prev.map (fun x => x.id) →
          ∃ b ∈ news, b.id = m.id ∧ m = processMsg b
            ∧ m.userType = some (b.userType.getD UserType.regular)) := by
  have hcases := mem_updateMessagesCore getTime threshold target prev news m hm
  rw [mergeDedup_eq prev news hnd] at hcases
  have hcases₂ : m ∈ prev ∨ m ∈ newInserts (prev.map (fun x => x.id)) news := by
    rcases hcases with h | h
    · exact Or.inl h
    · rcases List.mem_append.mp h with h₂ | h₂
      · exact Or.inl h₂
      · exact Or.inr h₂
  constructor
  · intro hid
    rcases hcases₂ with h | h
    · exact h
    · exact absurd hid (newInserts_id_not_seen _ _ m h)
  · intro hid
    rcases hcases₂ with h | h
    · exact absurd (List.mem_map_of_mem (fun x => x.id) h) hid
    · obtain ⟨b, hb, hbe⟩ := mem_newInserts _ _ m h
      refine ⟨b, hb, ?_, hbe, ?_⟩
      · rw [hbe]; rfl
      · rw [hbe]; rfl

/-- Witness for C4: with a stored event of id 1 and a batch holding a
duplicate of id 1 (with a different timestamp) and a fresh id 2, the
stored version of id 1 survives unchanged and the fresh event is stored
normalized with `userType = regular`. -/
theorem updateMessages_keeps_first_seen_and_normalizes_witness :
    mkMsg "1" "1" ∈ updateMessagesCore dateGetTime 4000 3000
        [mkMsg "1" "1"] [mkMsg "1" "9", mkMsg "2" "2"]
      ∧ mkMsg "1" "1" ∈ [mkMsg "1" "1"]
      ∧ processMsg (mkMsg "2" "2") ∈ updateMessagesCore dateGetTime 4000 3000
          [mkMsg "1" "1"] [mkMsg "1" "9", mkMsg "2" "2"]
      ∧ (∃ b ∈ [mkMsg "1" "9", mkMsg "2" "2"], b.id = (processMsg (mkMsg "2" "2")).id
          ∧ processMsg (mkMsg "2" "2") = processMsg b
          ∧ (processMsg (mkMsg "2" "2")).userType
              = some (b.userType.getD UserType.regular)) := by
  have hm₁ : mkMsg "1" "1" ∈ updateMessagesCore dateGetTime 4000 3000
      [mkMsg "1" "1"] [mkMsg "1" "9", mkMsg "2" "2"] := by
    show mkMsg "1" "1" ∈ updateMessages [mkMsg "1" "1"] [mkMsg "1" "9", mkMsg "2" "2"]
    rw [updateMessages_eval]
    decide
  have hm₂ : processMsg (mkMsg "2" "2") ∈ updateMessagesCore dateGetTime 4000 3000
      [mkMsg "1" "1"] [mkMsg "1" "9", mkMsg "2" "2"] := by
    show processMsg (mkMsg "2" "2")
        ∈ updateMessages [mkMsg "1" "1"] [mkMsg "1" "9", mkMsg "2" "2"]
    rw [updateMessages_eval]
    decide
  refine ⟨hm₁, ?_, hm₂, ?_⟩
  · exact (updateMessages_keeps_first_seen_and_normalizes dateGetTime 4000 3000
      [mkMsg "1" "1"] [mkMsg "1" "9", mkMsg "2" "2"] (mkMsg "1" "1")
      (by decide) hm₁).1 (by decide)
  · exact (updateMessages_keeps_first_seen_and_normalizes dateGetTime 4000 3000
      [mkMsg "1" "1"] [mkMsg "1" "9", mkMsg "2" "2"] (processMsg (mkMsg "2" "2"))
      (by decide) hm₂).2 (by decide)

/-- Claim C10: inserting an empty batch returns the previous log object
unchanged — no normalization, no re-sort, no prune — while a non-empty
batch consisting only of already-present ids still runs the full
sort-and-prune pass over the deduplicated previous log. -/
theorem updateMessages_empty_batch_identity (prev news : List ChatMessage)
    (hnd : (prev.map (fun m => m.id)).Nodup)
    (hne : news ≠ [])
    (hsub : ∀ b ∈ news, b.id ∈ prev.map (fun m => m.id)) :
    updateMessages prev [] = prev
      ∧ updateMessages prev news
          = (if PRUNE_THRESHOLD < (jsStableSort (tsLE dateGetTime) prev).length then
              (jsStableSort (tsLE dateGetTime) prev).drop
                ((jsStableSort (tsLE dateGetTime) prev).length - PRUNE_TARGET)
            else jsStableSort (tsLE dateGetTime) prev) := by
  constructor
  · exact updateMessagesCore_nil dateGetTime PRUNE_THRESHOLD PRUNE_TARGET prev
  · have hmerged : mergeDedup prev news = prev := by
      rw [mergeDedup_eq prev news hnd, newInserts_eq_nil _ _ hsub, List.append_nil]
    unfold updateMessages updateMessagesCore
    rw [if_neg (by simpa [List.isEmpty_iff] using hne), hmerged]

/-- Witness for C10 at a two-element unsorted log and an all-duplicates
batch: the empty batch leaves the log untouched, while the duplicate batch
still re-sorts the stored sequence. -/
theorem updateMessages_empty_batch_identity_witness :
    updateMessages [mkMsg "1" "5", mkMsg "2" "3"] [] = [mkMsg "1" "5", mkMsg "2" "3"]
      ∧ updateMessages [mkMsg "1" "5", mkMsg "2" "3"] [mkMsg "1" "7"]
          = (if PRUNE_THRESHOLD
                < (jsStableSort (tsLE dateGetTime) [mkMsg "1" "5", mkMsg "2" "3"]).length then
              (jsStableSort (tsLE dateGetTime) [mkMsg "1" "5", mkMsg "2" "3"]).drop
                ((jsStableSort (tsLE dateGetTime) [mkMsg "1" "5", mkMsg "2" "3"]).length
                  - PRUNE_TARGET)
            else jsStableSort (tsLE dateGetTime) [mkMsg "1" "5", mkMsg "2" "3"]) :=
  updateMessages_empty_batch_identity [mkMsg "1" "5", mkMsg "2" "3"] [mkMsg "1" "7"]
    (by decide) (by decide) (by decide)

theorem bigPrev_ids_nodup : (bigPrev.map (fun m => m.id)).Nodup := by
  rw [bigPrev, List.map_map]
  refine List.Nodup.map ?_ (List.nodup_range 4000)
  intro i j h
  have h₂ : List.replicate (i + 1) 'a' = List.replicate (j + 1) 'a' :=
    congrArg String.data h
  have h₃ := congrArg List.length h₂
  simp at h₃
  omega

theorem mem_bigPrev (m : ChatMessage) (hm : m ∈ bigPrev) :
    m.timestamp = "5" ∧ m.id ≠ "b" := by
  obtain ⟨i, hi, rfl⟩ := List.mem_map.mp hm
  refine ⟨rfl, ?_⟩
  intro h
  have h₂ : List.replicate (i + 1) 'a' = ['b'] := congrArg String.data h
  rw [List.replicate_succ] at h₂
  injection h₂ with h₃ h₄
  exact absurd h₃ (by decide)

theorem bNew_id_fresh : bNew.id ∉ bigPrev.map (fun m => m.id) := by
  intro h
  obtain ⟨m, hm, hme⟩ := List.mem_map.mp h
  exact (mem_bigPrev m hm).2 hme

theorem newInserts_single (seen : List String) (b : ChatMessage) (h : b.id ∉ seen) :
    newInserts seen [b] = [processMsg b] := by
  unfold newInserts
  rw [if_neg h]
  rfl

theorem bigMerged_eq : mergeDedup bigPrev [bNew] = bigPrev ++ [processMsg bNew] := by
  rw [mergeDedup_eq bigPrev [bNew] bigPrev_ids_nodup]
  rw [newInserts_single _ _ bNew_id_fresh]

theorem bigMerged_length : (mergeDedup bigPrev [bNew]).length = 4001 := by
  rw [bigMerged_eq]
  simp [bigPrev]

theorem bigMerged_wf :
    ∀ m ∈ mergeDedup bigPrev [bNew], (dateGetTime m.timestamp).isSome := by
  intro m hm
  rw [bigMerged_eq] at hm
  rcases List.mem_append.mp hm with h | h
  · rw [(mem_bigPrev m h).1]
    decide
  · have he : m = processMsg bNew := by simpa using h
    rw [he]
    decide

theorem keyVal_bigPrev (m : ChatMessage) (hm : m ∈ bigPrev) :
    keyVal dateGetTime m = 5 := by
  rw [keyVal, (mem_bigPrev m hm).1]
  decide

/-- Counterexample to claim C2 as stated: inserting the same batch twice
is NOT always the same as inserting it once.  With a full log of 4000
events and a batch holding one fresh event strictly older than everything
stored, the first insert merges to 4001 events, exceeds `PRUNE_THRESHOLD`
and prunes to the most recent 3000, evicting the batch event; the second
insert of the same batch finds that id absent and re-adds it, producing a
3001-event log.  Every timestamp here parses, so the comparator is a
total preorder and the modelled stable sort provably agrees with every
conforming engine. -/
theorem updateMessages_not_idempotent :
    updateMessages (updateMessages bigPrev [bNew]) [bNew]
      ≠ updateMessages bigPrev [bNew] := by
  have hne : ([bNew] : List ChatMessage) ≠ [] := by simp
  have hgt : PRUNE_THRESHOLD < (mergeDedup bigPrev [bNew]).length := by
    rw [bigMerged_length]
    decide
  have h1 : updateMessages bigPrev [bNew]
      = (jsStableSort (tsLE dateGetTime) (mergeDedup bigPrev [bNew])).drop
          ((mergeDedup bigPrev [bNew]).length - PRUNE_TARGET) :=
    updateMessagesCore_of_gt dateGetTime PRUNE_THRESHOLD PRUNE_TARGET bigPrev [bNew] hne hgt
  have hlen1 : (updateMessages bigPrev [bNew]).length = 3000 := by
    rw [h1, List.length_drop, jsStableSort_length, bigMerged_length]
    decide
  have hpair := pairwise_key_jsStableSort dateGetTime (mergeDedup bigPrev [bNew]) bigMerged_wf
  have hids_nodup := mergeDedup_ids_nodup bigPrev [bNew] bigPrev_ids_nodup
  have hperm₁ : List.Perm (jsStableSort (tsLE dateGetTime) (mergeDedup bigPrev [bNew]))
      (mergeDedup bigPrev [bNew]) :=
    jsStableSort_perm (tsLE dateGetTime) (mergeDedup bigPrev [bNew])
  have hperm₂ : List.Perm
      ((jsStableSort (tsLE dateGetTime) (mergeDedup bigPrev [bNew])).map (fun m => m.id))
      ((mergeDedup bigPrev [bNew]).map (fun m => m.id)) :=
    hperm₁.map (fun m => m.id)
  have hs_ids_nodup : ((jsStableSort (tsLE dateGetTime) (mergeDedup bigPrev [bNew])).map
      (fun m => m.id)).Nodup :=
    hperm₂.nodup_iff.mpr hids_nodup
  have hs_nodup : (jsStableSort (tsLE dateGetTime) (mergeDedup bigPrev [bNew])).Nodup :=
    List.Nodup.of_map (fun m => m.id) hs_ids_nodup
  have hnodup₂ : ((jsStableSort (tsLE dateGetTime) (mergeDedup bigPrev [bNew])).take
        ((mergeDedup bigPrev [bNew]).length - PRUNE_TARGET)
      ++ (jsStableSort (tsLE dateGetTime) (mergeDedup bigPrev [bNew])).drop
        ((mergeDedup bigPrev [bNew]).length - PRUNE_TARGET)).Nodup := by
    rw [List.take_append_drop]
    exact hs_nodup
  have hdisj := List.disjoint_of_nodup_append hnodup₂
  have hpb_not : processMsg bNew ∉ updateMessages bigPrev [bNew] := by
    intro hmem
    rw [h1] at hmem
    have hlt : 0 < ((jsStableSort (tsLE dateGetTime) (mergeDedup bigPrev [bNew])).take
        ((mergeDedup bigPrev [bNew]).length - PRUNE_TARGET)).length := by
      rw [List.length_take, jsStableSort_length, bigMerged_length]
      decide
    obtain ⟨x, hx⟩ := List.exists_mem_of_ne_nil _ (List.length_pos.mp hlt)
    have hxnotdrop := hdisj hx
    have hxne : x ≠ processMsg bNew := by
      intro he
      exact hxnotdrop (he ▸ hmem)
    have hxmerged : x ∈ mergeDedup bigPrev [bNew] :=
      jsStableSort_mem.mp (List.mem_of_mem_take hx)
    have hxprev : x ∈ bigPrev := by
      rw [bigMerged_eq] at hxmerged
      rcases List.mem_append.mp hxmerged with h | h
      · exact h
      · exact absurd (by simpa using h) hxne
    have hkey := pairwise_take_drop hpair
      ((mergeDedup bigPrev [bNew]).length - PRUNE_TARGET) x hx (processMsg bNew) hmem
    rw [keyVal_bigPrev x hxprev] at hkey
    have h4 : keyVal dateGetTime (processMsg bNew) = 4 := by decide
    rw [h4] at hkey
    omega
  have hid_not : bNew.id ∉ (updateMessages bigPrev [bNew]).map (fun m => m.id) := by
    intro hmem
    obtain ⟨m, hm, hme⟩ := List.mem_map.mp hmem
    have hm₂ : m ∈ mergeDedup bigPrev [bNew] := by
      have hmc := hm
      rw [h1] at hmc
      exact jsStableSort_mem.mp (List.mem_of_mem_drop hmc)
    rw [bigMerged_eq] at hm₂
    rcases List.mem_append.mp hm₂ with h | h
    · exact (mem_bigPrev m h).2 hme
    · have he : m = processMsg bNew := by simpa using h
      rw [he] at hm
      exact hpb_not hm
  have hsub₁ : List.Sublist
      (((jsStableSort (tsLE dateGetTime) (mergeDedup bigPrev [bNew])).drop
          ((mergeDedup bigPrev [bNew]).length - PRUNE_TARGET)).map (fun m => m.id))
      ((jsStableSort (tsLE dateGetTime) (mergeDedup bigPrev [bNew])).map (fun m => m.id)) := by
    apply List.Sublist.map
    exact List.drop_sublist ((mergeDedup bigPrev [bNew]).length - PRUNE_TARGET)
      (jsStableSort (tsLE dateGetTime) (mergeDedup bigPrev [bNew]))
  have hnd₁ : ((updateMessages bigPrev [bNew]).map (fun m => m.id)).Nodup := by
    rw [h1]
    exact List.Nodup.sublist hsub₁ hs_ids_nodup
  have hm₂eq : mergeDedup (updateMessages bigPrev [bNew]) [bNew]
      = updateMessages bigPrev [bNew] ++ [processMsg bNew] := by
    rw [mergeDedup_eq _ [bNew] hnd₁]
    rw [newInserts_single _ _ hid_not]
  have hlen₂ : (mergeDedup (updateMessages bigPrev [bNew]) [bNew]).length = 3001 := by
    rw [hm₂eq, List.length_append, hlen1]
    rfl
  have h2 : updateMessages (updateMessages bigPrev [bNew]) [bNew]
      = jsStableSort (tsLE dateGetTime)
          (mergeDedup (updateMessages bigPrev [bNew]) [bNew]) :=
    updateMessagesCore_of_le dateGetTime PRUNE_THRESHOLD PRUNE_TARGET _ [bNew] hne
      (by rw [hlen₂]; decide)
  intro heq
  have hlen_eq := congrArg List.length heq
  rw [h2, jsStableSort_length, hlen₂, hlen1] at hlen_eq
  exact absurd hlen_eq (by decide)

/-- Claim C2 amended: the batch insert is idempotent provided the first
insert does not prune (the merged deduplicated size stays within the
threshold); the merge itself drops, by id, every batch event whose id is
already stored (`mergeDedup` is the previous log followed by only the
fresh-id batch events).  The no-prune condition is forced by the
counterexample: a prune can evict a batch event, which the next insert of
the same batch then re-adds.  The theorem also assumes every merged
timestamp parses, which confines it to the region where the comparator is
consistent and the modelled stable sort provably coincides with the
engine's; with an unparsable timestamp the engine's order is
implementation-defined, so no shallow model can settle idempotence
there. -/
theorem updateMessages_idempotent_of_wf (getTime : String → Option Int)
    (threshold target : Nat) (prev news : List ChatMessage)
    (hnd : (prev.map (fun m => m.id)).Nodup)
    (hwf : ∀ m ∈ mergeDedup prev news, (getTime m.timestamp).isSome)
    (hlen : (mergeDedup prev news).length ≤ threshold) :
    updateMessagesCore getTime threshold target
        (updateMessagesCore getTime threshold target prev news) news
      = updateMessagesCore getTime threshold target prev news
      ∧ mergeDedup prev news = prev ++ newInserts (prev.map (fun m => m.id)) news := by
  refine ⟨?_, mergeDedup_eq prev news hnd⟩
  by_cases hne : news = []
  · subst hne
    rw [updateMessagesCore_nil, updateMessagesCore_nil]
  · have h₁ := updateMessagesCore_of_le getTime threshold target prev news hne hlen
    have hperm := jsStableSort_perm (tsLE getTime) (mergeDedup prev news)
    have hnd₁ : ((jsStableSort (tsLE getTime) (mergeDedup prev news)).map
        (fun m => m.id)).Nodup :=
      ((hperm.map (fun m => m.id)).nodup_iff).mpr (mergeDedup_ids_nodup prev news hnd)
    have hcov : ∀ b ∈ news,
        b.id ∈ (jsStableSort (tsLE getTime) (mergeDedup prev news)).map
          (fun m => m.id) := by
      intro b hb
      refine ((hperm.map (fun m => m.id)).mem_iff).mpr ?_
      rw [mergeDedup_eq prev news hnd, List.map_append, List.mem_append]
      rcases newInserts_covers (prev.map (fun m => m.id)) news b hb with h | h
      · exact Or.inl h
      · exact Or.inr h
    have hmm : mergeDedup (jsStableSort (tsLE getTime) (mergeDedup prev news)) news
        = jsStableSort (tsLE getTime) (mergeDedup prev news) := by
      rw [mergeDedup_eq _ news hnd₁, newInserts_eq_nil _ _ hcov, List.append_nil]
    have hsorted := pairwise_tsLE_jsStableSort getTime (mergeDedup prev news) hwf
    have h₂ := updateMessagesCore_of_le getTime threshold target
      (jsStableSort (tsLE getTime) (mergeDedup prev news)) news hne
      (by rw [hmm, jsStableSort_length]; omega)
    rw [h₁, h₂, hmm, jsStableSort_of_sorted hsorted]

/-- Witness for C2 amended at an empty log and a two-event batch with
parsable timestamps: re-inserting the batch leaves the log unchanged. -/
theorem updateMessages_idempotent_of_wf_witness :
    updateMessagesCore dateGetTime 4000 3000
        (updateMessagesCore dateGetTime 4000 3000 [] [mkMsg "1" "2", mkMsg "2" "1"])
        [mkMsg "1" "2", mkMsg "2" "1"]
      = updateMessagesCore dateGetTime 4000 3000 [] [mkMsg "1" "2", mkMsg "2" "1"] :=
  (updateMessages_idempotent_of_wf dateGetTime 4000 3000 [] [mkMsg "1" "2", mkMsg "2" "1"]
    (by decide) (by decide) (by decide)).1

/-- Counterexample to claim C3 as stated: after inserting `nanBatch` the
log holds the event with parsed timestamp 9 at index 3 and the event with
parsed timestamp 8 at index 5, so an event with the strictly smaller
timestamp sits at the strictly larger index — the unparsable timestamps in
between tie with everything and break the sort's transitivity. -/
theorem updateMessages_not_sorted :
    ¬ (∀ (i j : Nat) (mi mj : ChatMessage) (x y : Int),
        (updateMessages [] nanBatch)[i]? = some mi →
        (updateMessages [] nanBatch)[j]? = some mj →
        dateGetTime mi.timestamp = some x →
        dateGetTime mj.timestamp = some y →
        x < y → i < j) := by
  intro h
  have h₅₃ := h 5 3 (processMsg (mkMsg "6" "8")) (processMsg (mkMsg "3" "9")) 8 9
    (by simp only [updateMessages_eval]; decide)
    (by simp only [updateMessages_eval]; decide)
    (by decide) (by decide) (by omega)
  omega

/-- Claim C3 amended: when every timestamp of the merged sequence parses,
the post-cycle log is sorted ascending by parsed timestamp; the pre-sort
merged order is the existing log followed by the newly inserted batch
events in batch order; and any two events with equal parsed timestamps
keep that pre-sort relative order through the stable sort. -/
theorem updateMessages_sorted_of_wf (getTime : String → Option Int)
    (threshold target : Nat) (prev news : List ChatMessage)
    (hnd : (prev.map (fun m => m.id)).Nodup)
    (hne : news ≠ [])
    (hwf : ∀ m ∈ mergeDedup prev news, (getTime m.timestamp).isSome) :
    (updateMessagesCore getTime threshold target prev news).Pairwise
        (fun a b => keyVal getTime a ≤ keyVal getTime b)
      ∧ mergeDedup prev news = prev ++ newInserts (prev.map (fun m => m.id)) news
      ∧ (∀ a b : ChatMessage, keyVal getTime a = keyVal getTime b →
          List.Sublist [a, b] (mergeDedup prev news) →
          List.Sublist [a, b] (jsStableSort (tsLE getTime) (mergeDedup prev news))) := by
  refine ⟨?_, mergeDedup_eq prev news hnd, ?_⟩
  · have hsorted := pairwise_key_jsStableSort getTime (mergeDedup prev news) hwf
    by_cases hgt : threshold < (mergeDedup prev news).length
    · rw [updateMessagesCore_of_gt getTime threshold target prev news hne hgt]
      exact hsorted.sublist (List.drop_sublist _ _)
    · rw [updateMessagesCore_of_le getTime threshold target prev news hne (by omega)]
      exact hsorted
  · intro a b hk hs
    exact pair_sublist_jsStableSort getTime hwf (le_of_eq hk) hs

/-- Witness for C3 amended at an empty log and a batch of three parsable
events, two of them with equal timestamps: the resulting log is sorted by
parsed timestamp and the tied pair keeps its batch order in the sort. -/
theorem updateMessages_sorted_of_wf_witness :
    (updateMessagesCore dateGetTime 4000 3000 []
        [mkMsg "1" "7", mkMsg "2" "3", mkMsg "3" "3"]).Pairwise
      (fun a b => keyVal dateGetTime a ≤ keyVal dateGetTime b)
      ∧ List.Sublist [processMsg (mkMsg "2" "3"), processMsg (mkMsg "3" "3")]
          (jsStableSort (tsLE dateGetTime)
            (mergeDedup [] [mkMsg "1" "7", mkMsg "2" "3", mkMsg "3" "3"])) := by
  have h := updateMessages_sorted_of_wf dateGetTime 4000 3000 []
    [mkMsg "1" "7", mkMsg "2" "3", mkMsg "3" "3"] (by decide) (by decide) (by decide)
  refine ⟨h.1, ?_⟩
  refine h.2.2 (processMsg (mkMsg "2" "3")) (processMsg (mkMsg "3" "3")) (by decide) ?_
  decide

/-- Counterexample to claim C5 as stated: `updateMessages` stores a
malformed-timestamp event with its timestamp verbatim and still
unparsable; no fallback "now" timestamp is assigned anywhere in the insert
cycle (the function has no clock input at all). -/
theorem updateMessages_no_fallback_timestamp :
    updateMessages [] [badMsg] = [processMsg badMsg]
      ∧ (processMsg badMsg).timestamp = "not-a-date"
      ∧ dateGetTime (processMsg badMsg).timestamp = none := by
  refine ⟨?_, rfl, by decide⟩
  simp only [updateMessages_eval]
  decide

/-- Claim C5 amended: a malformed-timestamp event is never rejected — its
id always enters the merged deduplicated sequence (only id-level dedup can
drop a batch event) — and it participates in the sort ordering as a tie
with every other event, the timestamp kept verbatim rather than replaced
by a fallback value. -/
theorem updateMessages_retains_malformed (getTime : String → Option Int)
    (prev news : List ChatMessage) (b : ChatMessage)
    (hnd : (prev.map (fun m => m.id)).Nodup)
    (hb : b ∈ news) :
    b.id ∈ (mergeDedup prev news).map (fun m => m.id)
      ∧ (getTime b.timestamp = none →
          ∀ a : ChatMessage, tsLE getTime b a = true ∧ tsLE getTime a b = true) := by
  constructor
  · rw [mergeDedup_eq prev news hnd, List.map_append, List.mem_append]
    rcases newInserts_covers (prev.map (fun m => m.id)) news b hb with h | h
    · exact Or.inl h
    · exact Or.inr h
  · intro hnone a
    constructor
    · simp [tsLE, tsCompare, hnone]
    · rcases h : getTime a.timestamp with _ | x
      · simp [tsLE, tsCompare, hnone, h]
      · simp [tsLE, tsCompare, hnone, h]

/-- Witness for C5 amended: the unparsable-timestamp event `badMsg` enters
the merged sequence and ties in both directions against a parsable
event. -/
theorem updateMessages_retains_malformed_witness :
    "b1" ∈ (mergeDedup [] [badMsg, mkMsg "2" "5"]).map (fun m => m.id)
      ∧ tsLE dateGetTime badMsg (mkMsg "2" "5") = true
      ∧ tsLE dateGetTime (mkMsg "2" "5") badMsg = true := by
  have h := updateMessages_retains_malformed dateGetTime [] [badMsg, mkMsg "2" "5"] badMsg
    (by decide) (by decide)
  exact ⟨h.1, (h.2 (by decide) (mkMsg "2" "5")).1, (h.2 (by decide) (mkMsg "2" "5")).2⟩

/-! ### Liveness classification lemmas and claim C6 -/

theorem classifyStep_mem (nonLive acc : List String) (e url : String)
    (h : url ∈ classifyStep nonLive acc e) :
    url ∈ acc
      ∨ (firstUrlMatch e.data = some url ∧ isNotLiveError e = true ∧ url ∉ nonLive) := by
  unfold classifyStep at h
  rcases hm : firstUrlMatch e.data with _ | u
  · left
    simpa [hm] using h
  · by_cases hs : isNotLiveError e = true
    · by_cases hmem : u ∈ nonLive
      · left
        simpa [hm, hs, hmem] using h
      · have h₂ : url ∈ acc ++ [u] := by simpa [hm, hs, hmem] using h
        rcases List.mem_append.mp h₂ with h₃ | h₃
        · exact Or.inl h₃
        · have hu : url = u := by simpa using h₃
          subst hu
          exact Or.inr ⟨rfl, hs, hmem⟩
    · left
      simpa [hm, hs] using h

theorem classifyStep_of_no_signal (nonLive acc : List String) (e : String)
    (h : isNotLiveError e = false) : classifyStep nonLive acc e = acc := by
  unfold classifyStep
  rcases hm : firstUrlMatch e.data with _ | u
  · rfl
  · simp [h]

theorem foldl_classifyStep_mem (errors : List String) (nonLive : List String) :
    ∀ (acc : List String) (url : String), url ∈ errors.foldl (classifyStep nonLive) acc →
      url ∈ acc
        ∨ ∃ e ∈ errors, firstUrlMatch e.data = some url ∧ isNotLiveError e = true
            ∧ url ∉ nonLive := by
  induction errors with
  | nil => intro acc url h; exact Or.inl h
  | cons e rest ih =>
    intro acc url h
    rw [List.foldl_cons] at h
    rcases ih (classifyStep nonLive acc e) url h with h₂ | h₂
    · rcases classifyStep_mem nonLive acc e url h₂ with h₃ | h₃
      · exact Or.inl h₃
      · exact Or.inr ⟨e, by simp, h₃.1, h₃.2.1, h₃.2.2⟩
    · obtain ⟨e₂, he₂, hrest⟩ := h₂
      exact Or.inr ⟨e₂, by simp [he₂], hrest⟩

/-- Claim C6: a URL enters the newly-non-live batch only when some error
string yields it under the URL pattern, carries one of the three definitive
dead-stream signals, and is not already retired; and a cycle whose error
strings carry no dead-stream signal (timeouts, auth errors, generic
transport failures) retires nothing. -/
theorem fetchChatMessages_liveness_classification (errors nonLive : List String) :
    (∀ url ∈ processChatErrors errors nonLive,
        ∃ e ∈ errors, firstUrlMatch e.data = some url ∧ isNotLiveError e = true
          ∧ url ∉ nonLive)
      ∧ ((∀ e ∈ errors, isNotLiveError e = false) →
          processChatErrors errors nonLive = []) := by
  constructor
  · intro url h
    rcases foldl_classifyStep_mem errors nonLive [] url h with h₂ | h₂
    · exact absurd h₂ (List.not_mem_nil url)
    · exact h₂
  · intro hno
    unfold processChatErrors
    have : ∀ (es : List String) (acc : List String),
        (∀ e ∈ es, isNotLiveError e = false) →
        es.foldl (classifyStep nonLive) acc = acc := by
      intro es
      induction es with
      | nil => intro acc _; rfl
      | cons e rest ih =>
        intro acc hn
        rw [List.foldl_cons, classifyStep_of_no_signal nonLive acc e (hn e (by simp))]
        exact ih acc fun e₂ he₂ => hn e₂ (by simp [he₂])
    exact this errors [] hno

/-- Witness for C6: a dead-stream error string retires exactly its URL,
and a pure timeout error retires nothing. -/
theorem fetchChatMessages_liveness_classification_witness :
    "https://www.youtube.com/watch?v=x"
        ∈ processChatErrors ["Failed to fetch live chat: https://www.youtube.com/watch?v=x"] []
      ∧ (∃ e ∈ ["Failed to fetch live chat: https://www.youtube.com/watch?v=x"],
          firstUrlMatch e.data = some "https://www.youtube.com/watch?v=x"
            ∧ isNotLiveError e = true ∧ "https://www.youtube.com/watch?v=x" ∉ ([] : List String))
      ∧ processChatErrors ["Request timed out for https://www.youtube.com/watch?v=y"] [] = [] := by
  have hmem : "https://www.youtube.com/watch?v=x"
      ∈ processChatErrors ["Failed to fetch live chat: https://www.youtube.com/watch?v=x"] [] := by
    decide
  refine ⟨hmem, ?_, ?_⟩
  · exact (fetchChatMessages_liveness_classification
      ["Failed to fetch live chat: https://www.youtube.com/watch?v=x"] []).1 _ hmem
  · exact (fetchChatMessages_liveness_classification
      ["Request timed out for https://www.youtube.com/watch?v=y"] []).2 (by decide)

/-! ### Polling loop lemmas and claim C7 -/

theorem runTicks_of_not_active (k : Nat) :
    ∀ s : PollState, s.chatId ∉ s.activeIntervals → runTicks s k = s := by
  induction k with
  | zero => intro s _; rfl
  | succ k ih =>
    intro s h
    show runTicks (pollStep s) k = s
    rw [pollStep, if_neg h]
    exact ih s h

/-- Claim C7: on the first tick at which the live source set is empty, the
polling loop terminates itself and reports the exhaustion condition
exactly once.  The tick's own `clearInterval` calls act on the stale
`pollingIntervals` closure value (the previous session's ids), but its
`setPollingIntervals({chat: null, metadata: null})` triggers the
`useEffect([pollingIntervals])` cleanup, which holds the pre-update state
value — this session's real interval ids — and clears both intervals at
the following commit: after the first empty tick no further fetch ever
occurs, the error count has risen exactly once and stays there, and both
of the session's interval ids are uninstalled. -/
theorem startPolling_exhaustion_terminates (s : PollState) (k : Nat)
    (hempty : liveUrlsOf s = [])
    (hcc : s.cleanupChat = some s.chatId)
    (hcm : s.cleanupMeta = some s.metaId)
    (hactive : s.chatId ∈ s.activeIntervals) :
    (runTicks s (k + 1)).fetches = s.fetches
      ∧ (runTicks s (k + 1)).errorReports = s.errorReports + 1
      ∧ s.chatId ∉ (runTicks s (k + 1)).activeIntervals
      ∧ s.metaId ∉ (runTicks s (k + 1)).activeIntervals := by
  have hcond : ¬ 0 < (liveUrlsOf s).length := by
    rw [hempty]
    simp
  have ht : pollStep s = { s with
      activeIntervals := (s.activeIntervals.filter
          (fun i => !(some i == s.staleChat) && !(some i == s.staleMeta))).filter
        (fun i => !(some i == s.cleanupChat) && !(some i == s.cleanupMeta)),
      pollingChat := none, pollingMeta := none,
      cleanupChat := none, cleanupMeta := none, pollingChanged := false,
      errorReports := s.errorReports + 1 } := by
    rw [pollStep, if_pos hactive, chatTick, if_neg hcond]
    rfl
  have hchat : s.chatId ∉ (pollStep s).activeIntervals := by
    rw [ht]
    intro hmem
    have hpred := (List.mem_filter.mp hmem).2
    rw [hcc] at hpred
    simp at hpred
  have hmeta : s.metaId ∉ (pollStep s).activeIntervals := by
    rw [ht]
    intro hmem
    have hpred := (List.mem_filter.mp hmem).2
    rw [hcm] at hpred
    simp at hpred
  have hrun : runTicks s (k + 1) = pollStep s := by
    show runTicks (pollStep s) k = pollStep s
    refine runTicks_of_not_active k (pollStep s) ?_
    have hid : (pollStep s).chatId = s.chatId := by rw [ht]
    rw [hid]
    exact hchat
  refine ⟨?_, ?_, ?_, ?_⟩
  · rw [hrun, ht]
  · rw [hrun, ht]
  · rw [hrun]; exact hchat
  · rw [hrun]; exact hmeta

/-- Witness for C7 at the concrete exhausted session: after two ticks the
session has fetched nothing, reported the exhaustion exactly once, and
both interval ids 1 and 2 are uninstalled. -/
theorem startPolling_exhaustion_terminates_witness :
    (runTicks exhaustedSession 2).fetches = 0
      ∧ (runTicks exhaustedSession 2).errorReports = 1
      ∧ 1 ∉ (runTicks exhaustedSession 2).activeIntervals
      ∧ 2 ∉ (runTicks exhaustedSession 2).activeIntervals :=
  startPolling_exhaustion_terminates exhaustedSession 1
    (by decide) (by decide) (by decide) (by decide)

/-! ### Tokenizer lemmas and claim C8 -/

theorem renderScan_nil (table : List (String × EmojiObject)) (f : Nat)
    (counts : List (String × Nat)) :
    renderScan table f [] [] counts = [] := by
  cases f <;> simp [renderScan]

theorem isPrefixOf_append_self (l t : List Char) : l.isPrefixOf (l ++ t) = true := by
  induction l with
  | nil => simp [List.isPrefixOf]
  | cons c cs ih => simp [List.isPrefixOf, ih]

theorem renderScan_marker_step (k : String) (e : EmojiObject) (f : Nat)
    (rest : List Char) (counts : List (String × Nat)) (hk : k.data ≠ []) :
    renderScan [(k, e)] (f + 1) [] (k.data ++ rest) counts
      = Segment.emoji e.emojiId e.url e.label (jsMapGetD counts k 0)
          :: renderScan [(k, e)] f [] rest
              (jsMapSet counts k (jsMapGetD counts k 0 + 1)) := by
  rcases hd : k.data with _ | ⟨c, d⟩
  · exact absurd hd hk
  · rw [List.cons_append]
    have hmatch : findEmojiMatch [(k, e)] (c :: (d ++ rest)) = some (k, e) := by
      unfold findEmojiMatch
      rw [if_pos ?_]
      rw [hd, ← List.cons_append]
      exact isPrefixOf_append_self (c :: d) rest
    simp only [renderScan, hmatch]
    rw [hd]
    have hdrop : (c :: (d ++ rest)).drop (c :: d).length = rest := by
      rw [← List.cons_append]
      exact List.drop_left (c :: d) rest
    rw [hdrop]
    simp

/-- Claim C8 amended: tokenizing with no emoji markers yields exactly one
text-run segment holding the whole message (also for `undefined`
`emojis`); and for any marker with NONETRIVIAL (nonempty) text, tokenizing
the marker's text repeated twice with that marker registered yields
exactly two symbol-reference segments with per-occurrence sequence numbers
0 and 1, in left-to-right scan order, and no text runs.  (The nonemptiness
hypothesis is forced: with an empty marker the source's scan loop cannot
advance — see the counterexample — so the claim as stated fails there.) -/
theorem renderMessageWithEmojis_tokenizes (msg : ChatMessage) (e : EmojiObject)
    (he : e.emojiId ≠ "") :
    (∀ m : ChatMessage,
        renderMessageWithEmojis { m with emojis := none } = [Segment.text m.message]
          ∧ renderMessageWithEmojis { m with emojis := some [] } = [Segment.text m.message])
      ∧ renderMessageWithEmojis
          { msg with message := e.emojiId ++ e.emojiId, emojis := some [e] }
          = [Segment.emoji e.emojiId e.url e.label 0,
             Segment.emoji e.emojiId e.url e.label 1] := by
  refine ⟨fun m => ⟨rfl, rfl⟩, ?_⟩
  have hd : e.emojiId.data ≠ [] := by
    intro h
    exact he (String.ext h)
  have hlen : 1 ≤ e.emojiId.data.length := by
    cases hld : e.emojiId.data with
    | nil => exact absurd hld hd
    | cons c t => simp
  show renderScan (emojiMapOf [e]) ((e.emojiId ++ e.emojiId) : String).data.length []
      ((e.emojiId ++ e.emojiId) : String).data [] = _
  have htab : emojiMapOf [e] = [(e.emojiId, e)] := rfl
  have hdata : ((e.emojiId ++ e.emojiId) : String).data
      = e.emojiId.data ++ e.emojiId.data := String.data_append _ _
  rw [htab, hdata]
  have hfuel : (e.emojiId.data ++ e.emojiId.data).length
      = (e.emojiId.data.length + e.emojiId.data.length - 2) + 1 + 1 := by
    rw [List.length_append]
    omega
  rw [hfuel]
  rw [renderScan_marker_step e.emojiId e _ e.emojiId.data [] hd]
  have hrest : e.emojiId.data = e.emojiId.data ++ [] := by simp
  rw [hrest, renderScan_marker_step e.emojiId e _ [] _ hd]
  rw [renderScan_nil]
  simp [jsMapGetD, jsMapSet]

/-- Witness for C8 amended at a one-character marker: the no-marker case
yields the single text run and the doubled marker yields the two numbered
symbol segments. -/
theorem renderMessageWithEmojis_tokenizes_witness :
    renderMessageWithEmojis { mkMsg "m" "0" with message := "hi", emojis := none }
        = [Segment.text "hi"]
      ∧ renderMessageWithEmojis
          { mkMsg "m" "0" with message := ":x:" ++ ":x:", emojis := some [⟨"u", "l", ":x:"⟩] }
          = [Segment.emoji ":x:" "u" "l" 0, Segment.emoji ":x:" "u" "l" 1] := by
  have h := renderMessageWithEmojis_tokenizes (mkMsg "m" "0") ⟨"u", "l", ":x:"⟩ (by decide)
  exact ⟨(h.1 { mkMsg "m" "0" with message := "hi", emojis := none }).1, h.2⟩

/-- Counterexample to claim C8 as stated: for the (degenerate) empty
marker, the message equal to the marker repeated twice is the empty
string, and the tokenizer emits no segments at all instead of two
symbol-reference segments — in the source the scan loop cannot even
advance past an empty marker. -/
theorem renderMessageWithEmojis_empty_marker :
    renderMessageWithEmojis
        { id := "m", timestamp := "0", message := "" ++ "",
          emojis := some [⟨"u", "l", ""⟩] }
      ≠ [Segment.emoji "" "u" "l" 0, Segment.emoji "" "u" "l" 1] := by
  decide

/-! ### Auto-scroll machine and claim C9 -/

/-- Counterexample to claim C9 as stated: from the Free state
(`autoScroll = false`), a plain scroll observation — not programmatic, no
button pressed — that lands within 100px of the tail flips the machine
back to Following automatically: `handleScroll` sets the flag from every
such observation (`setAutoScroll(atBottom)`). -/
theorem handleScroll_reenters_following_automatically :
    handleScroll false
        { scrollOffset := 900, scrollUpdateWasRequested := false, listAttached := true,
          threw := false, outerAttached := true, clientHeight := 100, scrollHeight := 1000 }
      = true := by
  decide

/-- Claim C9 amended: every non-programmatic scroll observation with the
list internals available sets the follow flag to whether the viewport is
within 100px of the tail — so entering Free more than 100px away is
automatic, as claimed, but returning to Following near the tail is ALSO
automatic; programmatic scrolls never change the flag; and the two
explicit controls behave as stated (toggle flips the flag, scroll-to-latest
forces Following). -/
theorem handleScroll_two_state_machine (st : Bool) (ev : ScrollEvent)
    (hreq : ev.scrollUpdateWasRequested = false) (hlist : ev.listAttached = true)
    (hthrew : ev.threw = false) (houter : ev.outerAttached = true) :
    handleScroll st ev = decide (ev.scrollHeight - 100 ≤ ev.scrollOffset + ev.clientHeight)
      ∧ (∀ (b : Bool) (e : ScrollEvent), e.scrollUpdateWasRequested = true →
          handleScroll b e = b)
      ∧ (∀ b : Bool, toggleAutoScrollClick b = !b)
      ∧ (∀ b : Bool, scrollToLatestClick b = true) := by
  refine ⟨?_, ?_, fun b => rfl, fun b => rfl⟩
  · simp [handleScroll, hreq, hlist, hthrew, houter]
  · intro b e hpe
    simp [handleScroll, hpe]

/-- Witness for C9 amended: an observation 800px away from the tail moves
the machine into Free, and a programmatic scroll changes nothing. -/
theorem handleScroll_two_state_machine_witness :
    handleScroll true
        { scrollOffset := 0, scrollUpdateWasRequested := false, listAttached := true,
          threw := false, outerAttached := true, clientHeight := 100, scrollHeight := 1000 }
      = false
      ∧ handleScroll false
          { scrollOffset := 0, scrollUpdateWasRequested := true, listAttached := true,
            threw := false, outerAttached := true, clientHeight := 100, scrollHeight := 1000 }
        = false := by
  have h := handleScroll_two_state_machine true
    { scrollOffset := 0, scrollUpdateWasRequested := false, listAttached := true,
      threw := false, outerAttached := true, clientHeight := 100, scrollHeight := 1000 }
    rfl rfl rfl rfl
  refine ⟨h.1.trans (by decide), ?_⟩
  exact h.2.1 false
    { scrollOffset := 0, scrollUpdateWasRequested := true, listAttached := true,
      threw := false, outerAttached := true, clientHeight := 100, scrollHeight := 1000 } rfl

end Agg
